import Mathlib

/-!
Shallow embedding of the delegation (NIP-26) subsystem of the nostr-types
repository: the conditions grammar (parse, serialize, evaluate), the
delegation token construction, delegation tag creation and validation, and
the JSON tag codec, all translated from src/types/delegation.rs and
src/types/public_key.rs.

Rust strings are embedded as lists of characters; u64 values as natural
numbers with explicit 2^64 bounds where the source parses u64. The external
cryptographic primitives (k256 Schnorr keys and signatures, SHA-256) and
the external JSON syntax layer (serde_json) are idealized: a signature is a
symbolic pair of the signer's public key and the signed digest, the digest
is an injective function of the message (collision-free idealization of
SHA-256), and JSON input is taken as an already-parsed value, with `none`
standing for a syntax error reported by the external parser.
-/

deriving instance DecidableEq for Except

namespace Nostr

abbrev Chars := List Char

/-- Split a character list at every occurrence of the separator, keeping
empty segments, mirroring Rust `str::split(char)`. -/
def splitOnC (sep : Char) : Chars → List Chars
  | [] => [[]]
  | c :: rest =>
    match splitOnC sep rest with
    | [] => [[]]
    | t :: ts => if c = sep then [] :: t :: ts else (c :: t) :: ts

/-- Join character lists with a single separator character between
consecutive parts, mirroring Rust `join` on a vector of strings. -/
def joinSep (sep : Char) : List Chars → Chars
  | [] => []
  | [x] => x
  | x :: y :: rest => x ++ sep :: joinSep sep (y :: rest)

/-- Remove the given leading characters if present, mirroring the Rust
string method that strips a leading pattern. -/
def stripPfx : Chars → Chars → Option Chars
  | [], s => some s
  | _ :: _, [] => none
  | p :: ps, c :: cs => if p = c then stripPfx ps cs else none

/-- Rust `std::num::IntErrorKind`, restricted to the cases reachable from
`u64::from_str`. -/
inductive IntErrorKind where
  | Empty
  | InvalidDigit
  | PosOverflow
deriving DecidableEq

/-- One more than the largest u64 value. -/
def u64MAX : Nat := 2 ^ 64

/-- Decimal digit accumulation loop of Rust `u64::from_str_radix`, with the
per-step overflow check of `checked_mul` and `checked_add`. -/
def parseU64Digits : Chars → Nat → Except IntErrorKind Nat
  | [], acc => .ok acc
  | c :: cs, acc =>
    if c.isDigit then
      if 10 * acc + (c.toNat - 48) < u64MAX then
        parseU64Digits cs (10 * acc + (c.toNat - 48))
      else .error .PosOverflow
    else .error .InvalidDigit

/-- Rust `u64::from_str`: an optional leading plus sign, then decimal
digits, value below 2^64; empty input reports `Empty`, a lone sign or any
non-digit reports `InvalidDigit`, a too-large value reports `PosOverflow`. -/
def u64_from_str (s : Chars) : Except IntErrorKind Nat :=
  match s with
  | [] => .error .Empty
  | c :: rest =>
    if c = '+' then
      match rest with
      | [] => .error .InvalidDigit
      | _ :: _ => parseU64Digits rest 0
    else parseU64Digits (c :: rest) 0

/-- Decimal digit character for a value below ten. -/
def digitChar (m : Nat) : Char := Char.ofNat (48 + m)

/-- Value of a digit string under a left fold, most significant first. -/
def valDigits : Chars → Nat → Nat
  | [], acc => acc
  | c :: cs, acc => valDigits cs (10 * acc + (c.toNat - 48))

/-- Accumulator loop of decimal printing of a natural number; digits are
pushed least significant first onto the accumulator. The first argument is
structural fuel, sufficient whenever it is at least the printed number. -/
def natToCharsCore : Nat → Nat → Chars → Chars
  | 0, _, acc => acc
  | fuel + 1, n, acc =>
    if n = 0 then acc
    else natToCharsCore fuel (n / 10) (digitChar (n % 10) :: acc)

/-- Decimal printing of a natural number, mirroring Rust `Display` for
`u64`: no sign, no padding, no redundant leading zeros. -/
def natToChars (n : Nat) : Chars := if n = 0 then ['0'] else natToCharsCore n n []

/-- Rust `ValidationError` from src/types/delegation.rs. -/
inductive ValidationError where
  | InvalidSignature
  | InvalidKind
  | CreatedTooEarly
  | CreatedTooLate
deriving DecidableEq

/-- Rust `DelegationError` from src/types/delegation.rs; the payloads of
the variants wrapping external library errors are not modelled. -/
inductive DelegationError where
  | SigningError
  | Key
  | ConditionsParseInvalidCondition
  | ConditionsParseNumeric (e : IntErrorKind)
  | ConditionsValidation (e : ValidationError)
  | DelegationTagParseJson
  | DelegationTagParse
deriving DecidableEq

/-- Modelled from the spec: the crate-level error wrapper (the crate's
`Error` enum lives outside the given sources); it carries delegation errors
and surfaces the external hex and key-primitive failures transparently. -/
inductive NError where
  | Delegation (e : DelegationError)
  | HexDecode
  | Key
deriving DecidableEq

/-- Lowercase hexadecimal digit character for a value below sixteen. -/
def hexDigitChar (n : Nat) : Char :=
  if n < 10 then Char.ofNat (48 + n) else Char.ofNat (87 + n)

/-- Lowercase hexadecimal rendering of a byte list, mirroring the encode
direction of the external hex crate. -/
def hexEncode : List Nat → Chars
  | [] => []
  | b :: bs => hexDigitChar (b / 16) :: hexDigitChar (b % 16) :: hexEncode bs

/-- Numeric value of one hexadecimal digit character, upper or lower case,
mirroring the digit handling of the external hex crate. -/
def hexDigitVal (c : Char) : Option Nat :=
  if 48 ≤ c.toNat ∧ c.toNat ≤ 57 then some (c.toNat - 48)
  else if 97 ≤ c.toNat ∧ c.toNat ≤ 102 then some (c.toNat - 87)
  else if 65 ≤ c.toNat ∧ c.toNat ≤ 70 then some (c.toNat - 55)
  else none

/-- Byte list from hexadecimal text, mirroring the decode direction of the
external hex crate: failure on odd length or on a character outside the
hexadecimal alphabet. -/
def hexDecode : Chars → Option (List Nat)
  | [] => some []
  | [_] => none
  | c1 :: c2 :: rest =>
    match hexDigitVal c1, hexDigitVal c2, hexDecode rest with
    | some h, some l, some bs => some ((16 * h + l) :: bs)
    | _, _, _ => none

/-- Rust `PublicKey` from src/types/public_key.rs; the wrapped external
`VerifyingKey` is embedded as its 32-byte representation. -/
structure PublicKey where
  bytes : List Nat
deriving DecidableEq

/-- Well-formed key bytes: the 32-byte representation of a valid key. -/
def PublicKey.Wf (p : PublicKey) : Prop :=
  p.bytes.length = 32 ∧ ∀ b ∈ p.bytes, b < 256

instance (p : PublicKey) : Decidable p.Wf := by
  unfold PublicKey.Wf; infer_instance

/-- Rust `PublicKey::as_hex_string`. -/
def PublicKey.as_hex_string (p : PublicKey) : Chars := hexEncode p.bytes

/-- Rust `PublicKey::try_from_hex_string`: hex decoding followed by the
external `VerifyingKey::from_bytes`, idealized as accepting exactly the
32-byte strings (the curve-point check of the external library is not
modelled). -/
def PublicKey.try_from_hex_string (v : Chars) : Except NError PublicKey :=
  match hexDecode v with
  | none => .error .HexDecode
  | some bs => if bs.length = 32 then .ok ⟨bs⟩ else .error .Key

/-- Rust `Id` (a 32-byte SHA-256 digest), idealized: the digest is kept as
the hashed message itself, making the hash injective (the collision-free
idealization of SHA-256). -/
structure Id where
  digest : Chars
deriving DecidableEq

/-- Rust `hash_256` from src/types/delegation.rs under the collision-free
idealization of SHA-256. -/
def hash_256 (input : Chars) : Id := ⟨input⟩

/-- Modelled from the spec: the external Schnorr signature value (the
crate's `Signature` type lives outside the given sources); idealized as the
pair of the signing key's public part and the signed digest, so that
verification succeeds exactly for the signer's key and the signed
message. -/
structure Signature where
  signer : PublicKey
  id : Id
deriving DecidableEq

/-- Modelled from the spec: the external private key (the crate's
`PrivateKey` type lives outside the given sources), represented by its
public counterpart, which is all the ideal signing model needs. -/
structure PrivateKey where
  pubkey : PublicKey
deriving DecidableEq

/-- Modelled from the spec: `PrivateKey::public_key`. -/
def PrivateKey.public_key (k : PrivateKey) : PublicKey := k.pubkey

/-- Modelled from the spec: `PrivateKey::sign_id`, the external signing
primitive producing a signature over a digest; in the ideal model it
always succeeds. -/
def PrivateKey.sign_id (k : PrivateKey) (i : Id) : Except Unit Signature :=
  .ok ⟨k.pubkey, i⟩

/-- Modelled from the spec: the external signature hex rendering
(`Signature::as_hex_string`), an injective encoding whose inverse is
`Signature.try_from_hex_string`. -/
def Signature.as_hex_string (s : Signature) : Chars :=
  hexEncode s.signer.bytes ++ '|' :: s.id.digest

/-- Modelled from the spec: the external signature hex parsing
(`Signature::try_from_hex_string`), the partial inverse of
`Signature.as_hex_string`. -/
def Signature.try_from_hex_string (v : Chars) : Except NError Signature :=
  match splitOnC '|' v with
  | [] => .error .Key
  | h :: rest =>
    match hexDecode h with
    | none => .error .Key
    | some bs => .ok ⟨⟨bs⟩, ⟨joinSep '|' rest⟩⟩

/-- Characters of the literal keyword "delegation". -/
def delegationKeyword : Chars := ['d','e','l','e','g','a','t','i','o','n']

/-- Rust `delegation_token`: the signable message
"nostr:delegation:(delegatee hex):(conditions)". -/
def delegation_token (delegatee_pubkey : PublicKey) (conditions : Chars) : Chars :=
  ['n','o','s','t','r',':'] ++ delegationKeyword ++ [':'] ++
    delegatee_pubkey.as_hex_string ++ [':'] ++ conditions

/-- Rust `Condition` from src/types/delegation.rs. -/
inductive Condition where
  | Kind (k : Nat)
  | CreatedBefore (t : Nat)
  | CreatedAfter (t : Nat)
deriving DecidableEq

/-- Characters of the literal "kind=". -/
def kindPfx : Chars := ['k','i','n','d','=']

/-- Characters of the literal "created_at<". -/
def beforePfx : Chars := ['c','r','e','a','t','e','d','_','a','t','<']

/-- Characters of the literal "created_at>". -/
def afterPfx : Chars := ['c','r','e','a','t','e','d','_','a','t','>']

/-- Rust `ToString for Condition`. -/
def Condition.to_string : Condition → Chars
  | .Kind k => kindPfx ++ natToChars k
  | .CreatedBefore t => beforePfx ++ natToChars t
  | .CreatedAfter t => afterPfx ++ natToChars t

/-- Rust `FromStr for Condition`. -/
def Condition.from_str (s : Chars) : Except DelegationError Condition :=
  match stripPfx kindPfx s with
  | some kind =>
    match u64_from_str kind with
    | .ok n => .ok (.Kind n)
    | .error e => .error (.ConditionsParseNumeric e)
  | none =>
    match stripPfx beforePfx s with
    | some created_before =>
      match u64_from_str created_before with
      | .ok n => .ok (.CreatedBefore n)
      | .error e => .error (.ConditionsParseNumeric e)
    | none =>
      match stripPfx afterPfx s with
      | some created_after =>
        match u64_from_str created_after with
        | .ok n => .ok (.CreatedAfter n)
        | .error e => .error (.ConditionsParseNumeric e)
      | none => .error .ConditionsParseInvalidCondition

/-- Rust `EventProperties`. -/
structure EventProperties where
  kind : Nat
  created_time : Nat
deriving DecidableEq

/-- Rust `Condition::evaluate`. -/
def Condition.evaluate (c : Condition) (ep : EventProperties) :
    Except ValidationError Unit :=
  match c with
  | .Kind k => if ep.kind ≠ k then .error .InvalidKind else .ok ()
  | .CreatedBefore t => if ep.created_time ≥ t then .error .CreatedTooLate else .ok ()
  | .CreatedAfter t => if ep.created_time ≤ t then .error .CreatedTooEarly else .ok ()

/-- Rust `Conditions`. -/
structure Conditions where
  cond : List Condition
deriving DecidableEq

/-- Loop body of Rust `Conditions::evaluate`: the first failing condition
aborts the iteration with its error. -/
def evalConds (ep : EventProperties) : List Condition → Except ValidationError Unit
  | [] => .ok ()
  | c :: rest =>
    match c.evaluate ep with
    | .error e => .error e
    | .ok _ => evalConds ep rest

/-- Rust `Conditions::evaluate`. -/
def Conditions.evaluate (cs : Conditions) (ep : EventProperties) :
    Except ValidationError Unit :=
  evalConds ep cs.cond

/-- Rust `ToString for Conditions`: the parts joined with the ampersand. -/
def Conditions.to_string (cs : Conditions) : Chars :=
  joinSep '&' (cs.cond.map Condition.to_string)

/-- Sequential parsing of the split segments, mirroring the collect into
`Result` in Rust `FromStr for Conditions`: the first failing segment aborts
the whole parse with its error. -/
def parseConds : List Chars → Except DelegationError (List Condition)
  | [] => .ok []
  | s :: rest =>
    match Condition.from_str s with
    | .error e => .error e
    | .ok c =>
      match parseConds rest with
      | .error e => .error e
      | .ok cs => .ok (c :: cs)

/-- Rust `FromStr for Conditions`. -/
def Conditions.from_str (s : Chars) : Except DelegationError Conditions :=
  if s = [] then .ok ⟨[]⟩
  else
    match parseConds (splitOnC '&' s) with
    | .error e => .error e
    | .ok l => .ok ⟨l⟩

/-- Well-formed condition: the stored bound fits in an unsigned 64-bit
value, as the Rust u64 payload does by construction. -/
def Condition.Wf : Condition → Prop
  | .Kind k => k < u64MAX
  | .CreatedBefore t => t < u64MAX
  | .CreatedAfter t => t < u64MAX

instance (c : Condition) : Decidable c.Wf := by
  cases c <;> (unfold Condition.Wf; infer_instance)

/-- Well-formed condition set: every member is well formed. -/
def Conditions.Wf (cs : Conditions) : Prop := ∀ c ∈ cs.cond, c.Wf

instance (cs : Conditions) : Decidable cs.Wf := by
  unfold Conditions.Wf; infer_instance

/-- Rust `DelegationTag`. -/
structure DelegationTag where
  delegator_pubkey : PublicKey
  conditions : Chars
  signature : Signature
deriving DecidableEq

/-- Rust `sign_delegation`. -/
def sign_delegation (delegator_privkey : PrivateKey) (delegatee_pubkey : PublicKey)
    (conditions : Chars) : Except NError Signature :=
  match delegator_privkey.sign_id
      (hash_256 (delegation_token delegatee_pubkey conditions)) with
  | .error _ => .error (.Delegation .SigningError)
  | .ok sig => .ok sig

/-- Rust `verify_delegation_signature`: the external Schnorr verification,
idealized as succeeding exactly for the delegator's key and the recomputed
token. -/
def verify_delegation_signature (delegator_pubkey : PublicKey) (signature : Signature)
    (delegatee_pubkey : PublicKey) (conditions : Chars) : Except NError Unit :=
  if signature.signer = delegator_pubkey ∧
      signature.id = hash_256 (delegation_token delegatee_pubkey conditions) then
    .ok ()
  else .error .Key

/-- Rust `DelegationTag::create`: sign first, over the caller's conditions
text, then parse and re-serialize the conditions for storage. -/
def DelegationTag.create (delegator_privkey : PrivateKey) (delegatee_pubkey : PublicKey)
    (conditions_string : Chars) : Except NError DelegationTag :=
  match sign_delegation delegator_privkey delegatee_pubkey conditions_string with
  | .error e => .error e
  | .ok signature =>
    match Conditions.from_str conditions_string with
    | .error e => .error (.Delegation e)
    | .ok conditions_struct =>
      .ok ⟨delegator_privkey.public_key, conditions_struct.to_string, signature⟩

/-- Rust `DelegationTag::validate`. -/
def DelegationTag.validate (t : DelegationTag) (delegatee_pubkey : PublicKey)
    (event_properties : EventProperties) : Except NError Unit :=
  match verify_delegation_signature t.delegator_pubkey t.signature delegatee_pubkey
      t.conditions with
  | .error _ => .error (.Delegation (.ConditionsValidation .InvalidSignature))
  | .ok _ =>
    match Conditions.from_str t.conditions with
    | .error e => .error (.Delegation e)
    | .ok conditions_struct =>
      match conditions_struct.evaluate event_properties with
      | .error e => .error (.Delegation (.ConditionsValidation e))
      | .ok _ => .ok ()

/-- JSON values, mirroring the external `serde_json::Value`; numbers are
irrelevant to the delegation codec and kept as integers. -/
inductive Json where
  | null
  | bool (b : Bool)
  | num (n : Int)
  | str (s : Chars)
  | arr (a : List Json)
  | obj (kvs : List (Chars × Json))

/-- Rust `Value::as_str`. -/
def Json.as_str : Json → Option Chars
  | .str s => some s
  | _ => none

/-- Rust `Value::as_array`. -/
def Json.as_array : Json → Option (List Json)
  | .arr a => some a
  | _ => none

/-- Rust `DelegationTag::as_json`, at the level of the constructed
`serde_json` value; the final text rendering is the external serializer. -/
def DelegationTag.as_json_value (t : DelegationTag) : Json :=
  .arr [.str delegationKeyword, .str t.delegator_pubkey.as_hex_string,
    .str t.conditions, .str t.signature.as_hex_string]

/-- Rust `DelegationTag::from_json` after the external `serde_json` text
parse: the argument is the already-parsed value. -/
def DelegationTag.from_json_value (v : Json) : Except NError DelegationTag :=
  match v.as_array with
  | none => .error (.Delegation .DelegationTagParse)
  | some a =>
    if a.length = 4 then
      if (a.getD 0 .null).as_str.getD [] = delegationKeyword then
        match PublicKey.try_from_hex_string ((a.getD 1 .null).as_str.getD []) with
        | .error e => .error e
        | .ok delegator_pubkey =>
          match Conditions.from_str ((a.getD 2 .null).as_str.getD []) with
          | .error e => .error (.Delegation e)
          | .ok conditions =>
            match Signature.try_from_hex_string ((a.getD 3 .null).as_str.getD []) with
            | .error e => .error e
            | .ok signature =>
              .ok ⟨delegator_pubkey, conditions.to_string, signature⟩
      else .error (.Delegation .DelegationTagParse)
    else .error (.Delegation .DelegationTagParse)

/-- Rust `DelegationTag::from_json` including the external syntax layer:
`none` stands for a syntax error reported by the external JSON parser. -/
def DelegationTag.from_json (parsed : Option Json) : Except NError DelegationTag :=
  match parsed with
  | none => .error (.Delegation .DelegationTagParseJson)
  | some v => DelegationTag.from_json_value v

/-- Modelled from the spec: the ABNF production for `uint`, one or more
decimal digits. -/
def specUint (u : Chars) : Bool := !u.isEmpty && u.all (·.isDigit)

/-- Modelled from the spec: the ABNF production for one condition. -/
def specCondition (s : Chars) : Bool :=
  match stripPfx kindPfx s with
  | some u => specUint u
  | none =>
    match stripPfx beforePfx s with
    | some u => specUint u
    | none =>
      match stripPfx afterPfx s with
      | some u => specUint u
      | none => false

/-- Modelled from the spec: the ABNF production for a conditions text,
the empty text or separator-joined conditions (an empty segment is not a
condition, so a leading or trailing separator is excluded). -/
def specConditionsGrammar (s : Chars) : Bool :=
  s.isEmpty || (splitOnC '&' s).all specCondition

/-- Canonical decimal numeral: digits only and exactly the decimal
rendering of its own value (no redundant leading zeros, no sign). -/
def canonUint (u : Chars) : Bool :=
  specUint u && u = natToChars (valDigits u 0)

/-- Grammar-valid condition whose numeral is in canonical decimal form. -/
def canonCondition (s : Chars) : Bool :=
  match stripPfx kindPfx s with
  | some u => canonUint u
  | none =>
    match stripPfx beforePfx s with
    | some u => canonUint u
    | none =>
      match stripPfx afterPfx s with
      | some u => canonUint u
      | none => false

/-- Canonical conditions text: empty, or separator-joined grammar-valid
conditions with every numeral in canonical decimal form. -/
def canonConditionsText (s : Chars) : Bool :=
  s.isEmpty || (splitOnC '&' s).all canonCondition

/-- Characters of "kind=01", a grammar-valid but non-canonical text. -/
def kind01 : Chars := ['k','i','n','d','=','0','1']

/-- Characters of "kind=1", the canonical form of "kind=01". -/
def kind1 : Chars := ['k','i','n','d','=','1']

/-- Characters of "kind=1&created_at>100&created_at<50". -/
def c2text : Chars :=
  ['k','i','n','d','=','1','&','c','r','e','a','t','e','d','_','a','t','>','1','0','0',
   '&','c','r','e','a','t','e','d','_','a','t','<','5','0']

/-- Concrete delegator key for the witnesses. -/
def privW : PrivateKey := ⟨⟨List.replicate 32 7⟩⟩

/-- Concrete delegatee key for the witnesses. -/
def pubB : PublicKey := ⟨List.replicate 32 9⟩

/-- A second, different concrete delegatee key for the witnesses. -/
def pubB2 : PublicKey := ⟨List.replicate 32 10⟩

/-- Concrete 32-byte key representation for the decode witnesses. -/
def pubBytesA : List Nat := List.replicate 32 170

/-- Boolean success test for a fallible result, mirroring `Result::is_ok`. -/
def isOkB {ε α : Type} : Except ε α → Bool
  | .ok _ => true
  | .error _ => false

/-- Proof-side decimal digit expansion of a natural number, most
significant digit first; `natToCharsCore` computes it tail-recursively. -/
def natDigits (n : Nat) : Chars :=
  if h : n = 0 then [] else natDigits (n / 10) ++ [digitChar (n % 10)]
decreasing_by exact Nat.div_lt_self (Nat.pos_of_ne_zero h) (by omega)

theorem digitChar_toNat {m : Nat} (h : m < 10) : (digitChar m).toNat = 48 + m := by
  interval_cases m <;> decide

theorem isDigit_digitChar {m : Nat} (h : m < 10) : (digitChar m).isDigit = true := by
  interval_cases m <;> decide

theorem ne_of_isDigit {c : Char} (h : c.isDigit = true) :
    c ≠ '&' ∧ c ≠ '+' ∧ c ≠ ':' ∧ c ≠ '|' := by
  refine ⟨?_, ?_, ?_, ?_⟩ <;> (intro he; subst he; exact absurd h (by decide))

theorem le_valDigits (cs : Chars) (acc : Nat) : acc ≤ valDigits cs acc := by
  induction cs generalizing acc with
  | nil => exact Nat.le_refl acc
  | cons c cs ih =>
    calc acc ≤ 10 * acc + (c.toNat - 48) := by omega
    _ ≤ valDigits cs (10 * acc + (c.toNat - 48)) := ih _
    _ = valDigits (c :: cs) acc := rfl

theorem valDigits_append (a b : Chars) (acc : Nat) :
    valDigits (a ++ b) acc = valDigits b (valDigits a acc) := by
  induction a generalizing acc with
  | nil => rfl
  | cons c a ih =>
    simp only [List.cons_append, valDigits]
    exact ih _

theorem parseU64Digits_ok_of {cs : Chars} {acc : Nat}
    (hd : ∀ c ∈ cs, c.isDigit = true) (hb : valDigits cs acc < u64MAX) :
    parseU64Digits cs acc = .ok (valDigits cs acc) := by
  induction cs generalizing acc with
  | nil => rfl
  | cons c cs ih =>
    have hc : c.isDigit = true := hd c (List.mem_cons_self c cs)
    have hstep : valDigits (c :: cs) acc = valDigits cs (10 * acc + (c.toNat - 48)) := rfl
    have hlt : 10 * acc + (c.toNat - 48) < u64MAX := by
      have := le_valDigits cs (10 * acc + (c.toNat - 48))
      rw [hstep] at hb
      omega
    simp only [parseU64Digits, hc, if_pos hlt, if_true]
    rw [hstep]
    exact ih (fun x hx => hd x (List.mem_cons_of_mem c hx)) (hstep ▸ hb)

theorem parseU64Digits_ok {cs : Chars} {acc n : Nat} (hacc : acc < u64MAX)
    (h : parseU64Digits cs acc = .ok n) : n = valDigits cs acc ∧ n < u64MAX := by
  induction cs generalizing acc with
  | nil =>
    injection h with h
    exact ⟨h.symm, h ▸ hacc⟩
  | cons c cs ih =>
    by_cases hc : c.isDigit = true
    · by_cases hlt : 10 * acc + (c.toNat - 48) < u64MAX
      · simp only [parseU64Digits, hc, if_true, if_pos hlt] at h
        exact ih hlt h
      · simp only [parseU64Digits, hc, if_true, if_neg hlt] at h
        simp at h
    · simp only [parseU64Digits, hc] at h
      simp at h

theorem u64_from_str_ok {s : Chars} {n : Nat} (h : u64_from_str s = .ok n) :
    n < u64MAX := by
  have h0 : (0 : Nat) < u64MAX := by decide
  cases s with
  | nil => simp [u64_from_str] at h
  | cons c rest =>
    by_cases hc : c = '+'
    · cases rest with
      | nil => simp [u64_from_str, hc] at h
      | cons c2 r2 =>
        simp only [u64_from_str, if_pos hc] at h
        exact (parseU64Digits_ok h0 h).2
    · simp only [u64_from_str, if_neg hc] at h
      exact (parseU64Digits_ok h0 h).2

theorem u64_from_str_val {s : Chars} {n : Nat} (hd : ∀ c ∈ s, c.isDigit = true)
    (h : u64_from_str s = .ok n) : n = valDigits s 0 := by
  have h0 : (0 : Nat) < u64MAX := by decide
  cases s with
  | nil => simp [u64_from_str] at h
  | cons c rest =>
    have hc : c ≠ '+' := (ne_of_isDigit (hd c (List.mem_cons_self c rest))).2.1
    simp only [u64_from_str, if_neg hc] at h
    exact (parseU64Digits_ok h0 h).1

theorem natDigits_zero : natDigits 0 = [] := by
  simp [natDigits]

theorem natDigits_succ {n : Nat} (h : n ≠ 0) :
    natDigits n = natDigits (n / 10) ++ [digitChar (n % 10)] := by
  rw [natDigits, dif_neg h]

theorem natDigits_all_digit (n : Nat) : ∀ c ∈ natDigits n, c.isDigit = true := by
  induction n using Nat.strong_induction_on with
  | _ n ih =>
    by_cases h : n = 0
    · simp [h, natDigits_zero]
    · rw [natDigits_succ h]
      intro c hc
      rcases List.mem_append.mp hc with hm | hm
      · exact ih (n / 10) (Nat.div_lt_self (Nat.pos_of_ne_zero h) (by omega)) c hm
      · rw [List.mem_singleton.mp hm]
        exact isDigit_digitChar (Nat.mod_lt n (by omega))

theorem valDigits_natDigits (n : Nat) : valDigits (natDigits n) 0 = n := by
  induction n using Nat.strong_induction_on with
  | _ n ih =>
    by_cases h : n = 0
    · simp [h, natDigits_zero, valDigits]
    · rw [natDigits_succ h, valDigits_append,
        ih (n / 10) (Nat.div_lt_self (Nat.pos_of_ne_zero h) (by omega))]
      show 10 * (n / 10) + ((digitChar (n % 10)).toNat - 48) = n
      rw [digitChar_toNat (Nat.mod_lt n (by omega))]
      omega

theorem natDigits_ne_nil {n : Nat} (h : n ≠ 0) : natDigits n ≠ [] := by
  rw [natDigits_succ h]
  simp

theorem natToCharsCore_eq_natDigits :
    ∀ fuel n acc, n ≤ fuel → natToCharsCore fuel n acc = natDigits n ++ acc := by
  intro fuel
  induction fuel with
  | zero =>
    intro n acc h
    interval_cases n
    simp [natToCharsCore, natDigits_zero]
  | succ fuel ih =>
    intro n acc h
    by_cases hn : n = 0
    · simp [hn, natToCharsCore, natDigits_zero]
    · have hdiv : n / 10 ≤ fuel := by
        have := Nat.div_lt_self (Nat.pos_of_ne_zero hn) (show 1 < 10 by omega)
        omega
      simp only [natToCharsCore, if_neg hn, ih (n / 10) _ hdiv, natDigits_succ hn,
        List.append_assoc, List.singleton_append]

theorem natToChars_eq (n : Nat) : natToChars n = if n = 0 then ['0'] else natDigits n := by
  by_cases h : n = 0
  · simp [natToChars, h]
  · rw [natToChars, if_neg h, if_neg h,
      natToCharsCore_eq_natDigits n n [] (Nat.le_refl n), List.append_nil]

theorem natToChars_ne_nil (n : Nat) : natToChars n ≠ [] := by
  rw [natToChars_eq]
  by_cases h : n = 0
  · simp [h]
  · simpa [h] using natDigits_ne_nil h

theorem natToChars_all_digit (n : Nat) : ∀ c ∈ natToChars n, c.isDigit = true := by
  rw [natToChars_eq]
  by_cases h : n = 0
  · simp only [h, if_pos rfl]
    intro c hc
    rw [List.mem_singleton.mp hc]
    decide
  · rw [if_neg h]
    exact natDigits_all_digit n

theorem valDigits_natToChars (n : Nat) : valDigits (natToChars n) 0 = n := by
  rw [natToChars_eq]
  by_cases h : n = 0
  · simp [h, valDigits]
  · rw [if_neg h]
    exact valDigits_natDigits n

theorem u64_from_str_natToChars {n : Nat} (h : n < u64MAX) :
    u64_from_str (natToChars n) = .ok n := by
  rcases List.exists_cons_of_ne_nil (natToChars_ne_nil n) with ⟨c, rest, hl⟩
  have hdig : ∀ x ∈ natToChars n, x.isDigit = true := natToChars_all_digit n
  have hc : c ≠ '+' := by
    have : c.isDigit = true := hdig c (hl ▸ List.mem_cons_self c rest)
    exact (ne_of_isDigit this).2.1
  have hval : valDigits (natToChars n) 0 = n := valDigits_natToChars n
  rw [hl] at hdig hval ⊢
  simp only [u64_from_str, if_neg hc]
  rw [parseU64Digits_ok_of hdig (by rw [hval]; exact h), hval]

theorem stripPfx_eq_some {p s r : Chars} : stripPfx p s = some r ↔ s = p ++ r := by
  induction p generalizing s with
  | nil => simp [stripPfx]
  | cons a ps ih =>
    cases s with
    | nil => simp [stripPfx]
    | cons c cs =>
      by_cases h : a = c
      · subst h
        simp only [stripPfx, if_pos rfl, List.cons_append, List.cons.injEq, true_and]
        exact ih
      · apply iff_of_false
        · simp [stripPfx, if_neg h]
        · intro he
          injection he with h1 _
          exact h h1.symm

theorem stripPfx_append (p r : Chars) : stripPfx p (p ++ r) = some r :=
  stripPfx_eq_some.mpr rfl

theorem splitOnC_ne_nil (sep : Char) (l : Chars) : splitOnC sep l ≠ [] := by
  cases l with
  | nil => simp [splitOnC]
  | cons c rest =>
    simp only [splitOnC]
    cases h : splitOnC sep rest with
    | nil => simp
    | cons t ts => by_cases hc : c = sep <;> simp [hc]

theorem joinSep_splitOnC (sep : Char) (l : Chars) : joinSep sep (splitOnC sep l) = l := by
  induction l with
  | nil => rfl
  | cons c rest ih =>
    simp only [splitOnC]
    cases h : splitOnC sep rest with
    | nil => exact absurd h (splitOnC_ne_nil sep rest)
    | cons t ts =>
      rw [h] at ih
      by_cases hc : c = sep
      · subst hc
        simp only [if_pos rfl, joinSep, List.nil_append]
        cases ts <;> simp_all [joinSep]
      · simp only [if_neg hc]
        cases ts with
        | nil => simpa [joinSep] using ih
        | cons t2 ts2 =>
          simp only [joinSep] at ih ⊢
          rw [List.cons_append, ih]

theorem splitOnC_of_not_mem {sep : Char} {l : Chars} (h : sep ∉ l) :
    splitOnC sep l = [l] := by
  induction l with
  | nil => rfl
  | cons c rest ih =>
    simp only [List.mem_cons, not_or] at h
    simp only [splitOnC, ih h.2]
    exact if_neg (fun he => h.1 he.symm)

theorem splitOnC_append_sep {sep : Char} {a b : Chars} (h : sep ∉ a) :
    splitOnC sep (a ++ sep :: b) = a :: splitOnC sep b := by
  induction a with
  | nil =>
    simp only [List.nil_append, splitOnC]
    cases hb : splitOnC sep b with
    | nil => exact absurd hb (splitOnC_ne_nil sep b)
    | cons t ts => simp
  | cons c a ih =>
    simp only [List.mem_cons, not_or] at h
    rw [List.cons_append]
    simp only [splitOnC, ih h.2]
    exact if_neg (fun he => h.1 he.symm)

theorem splitOnC_joinSep {sep : Char} {parts : List Chars} (hne : parts ≠ [])
    (h : ∀ p ∈ parts, sep ∉ p) : splitOnC sep (joinSep sep parts) = parts := by
  induction parts with
  | nil => exact absurd rfl hne
  | cons x parts ih =>
    cases parts with
    | nil => exact splitOnC_of_not_mem (h x (List.mem_singleton.mpr rfl))
    | cons y ps =>
      have hx : sep ∉ x := h x (List.mem_cons_self x _)
      have hrest : ∀ p ∈ y :: ps, sep ∉ p := fun p hp => h p (List.mem_cons_of_mem x hp)
      simp only [joinSep, splitOnC_append_sep hx, ih (by simp) hrest]

theorem hexDigitVal_hexDigitChar {n : Nat} (h : n < 16) :
    hexDigitVal (hexDigitChar n) = some n := by
  interval_cases n <;> decide

theorem hexDigitChar_ne {n : Nat} (h : n < 16) :
    hexDigitChar n ≠ '|' ∧ hexDigitChar n ≠ ':' ∧ hexDigitChar n ≠ '&' := by
  interval_cases n <;> exact (by decide)

theorem hexEncode_length (bs : List Nat) : (hexEncode bs).length = 2 * bs.length := by
  induction bs with
  | nil => rfl
  | cons b bs ih => simp [hexEncode, ih]; omega

theorem hexDecode_hexEncode {bs : List Nat} (h : ∀ b ∈ bs, b < 256) :
    hexDecode (hexEncode bs) = some bs := by
  induction bs with
  | nil => rfl
  | cons b bs ih =>
    have hb : b < 256 := h b (List.mem_cons_self b bs)
    have h1 : b / 16 < 16 := by omega
    have h2 : b % 16 < 16 := by omega
    simp only [hexEncode, hexDecode, hexDigitVal_hexDigitChar h1,
      hexDigitVal_hexDigitChar h2, ih (fun x hx => h x (List.mem_cons_of_mem b hx))]
    have : 16 * (b / 16) + b % 16 = b := by omega
    rw [this]

theorem pipe_not_mem_hexEncode {bs : List Nat} (h : ∀ b ∈ bs, b < 256) :
    '|' ∉ hexEncode bs := by
  induction bs with
  | nil => simp [hexEncode]
  | cons b bs ih =>
    have hb : b < 256 := h b (List.mem_cons_self b bs)
    have h1 : b / 16 < 16 := by omega
    have h2 : b % 16 < 16 := by omega
    simp only [hexEncode, List.mem_cons, not_or]
    exact ⟨fun he => (hexDigitChar_ne h1).1 he.symm,
      fun he => (hexDigitChar_ne h2).1 he.symm,
      ih (fun x hx => h x (List.mem_cons_of_mem b hx))⟩

theorem hexEncode_inj {a b : List Nat} (ha : ∀ x ∈ a, x < 256) (hb : ∀ x ∈ b, x < 256)
    (h : hexEncode a = hexEncode b) : a = b := by
  have := hexDecode_hexEncode ha
  rw [h, hexDecode_hexEncode hb] at this
  exact (Option.some.inj this).symm

theorem pubkey_hex_roundtrip {p : PublicKey} (h : p.Wf) :
    PublicKey.try_from_hex_string p.as_hex_string = .ok p := by
  obtain ⟨bs⟩ := p
  obtain ⟨hlen, hlt⟩ := h
  simp only [PublicKey.try_from_hex_string, PublicKey.as_hex_string,
    hexDecode_hexEncode hlt]
  rw [if_pos hlen]

theorem sig_hex_roundtrip {s : Signature} (h : ∀ b ∈ s.signer.bytes, b < 256) :
    Signature.try_from_hex_string s.as_hex_string = .ok s := by
  obtain ⟨⟨bs⟩, ⟨d⟩⟩ := s
  simp only at h
  simp only [Signature.as_hex_string, Signature.try_from_hex_string,
    splitOnC_append_sep (pipe_not_mem_hexEncode h), hexDecode_hexEncode h,
    joinSep_splitOnC]

theorem amp_not_mem_natToChars (n : Nat) : '&' ∉ natToChars n := by
  intro hm
  exact (ne_of_isDigit (natToChars_all_digit n '&' hm)).1 rfl

theorem amp_not_mem_to_string (c : Condition) : '&' ∉ Condition.to_string c := by
  cases c <;>
    (simp only [Condition.to_string, List.mem_append, not_or]
     exact ⟨by decide, amp_not_mem_natToChars _⟩)

theorem to_string_ne_nil (c : Condition) : Condition.to_string c ≠ [] := by
  cases c <;> simp [Condition.to_string, kindPfx, beforePfx, afterPfx]

theorem stripPfx_kind_before (x : Chars) : stripPfx kindPfx (beforePfx ++ x) = none := rfl

theorem stripPfx_kind_after (x : Chars) : stripPfx kindPfx (afterPfx ++ x) = none := rfl

theorem stripPfx_before_after (x : Chars) : stripPfx beforePfx (afterPfx ++ x) = none := rfl

theorem condition_roundtrip {c : Condition} (h : c.Wf) :
    Condition.from_str (Condition.to_string c) = .ok c := by
  cases c with
  | Kind k =>
    simp only [Condition.to_string, Condition.from_str, stripPfx_append,
      u64_from_str_natToChars h]
  | CreatedBefore t =>
    simp only [Condition.to_string, Condition.from_str, stripPfx_kind_before,
      stripPfx_append, u64_from_str_natToChars h]
  | CreatedAfter t =>
    simp only [Condition.to_string, Condition.from_str, stripPfx_kind_after,
      stripPfx_before_after, stripPfx_append, u64_from_str_natToChars h]

theorem parseConds_map {l : List Condition} (h : ∀ c ∈ l, c.Wf) :
    parseConds (l.map Condition.to_string) = .ok l := by
  induction l with
  | nil => rfl
  | cons c l ih =>
    simp only [List.map_cons, parseConds,
      condition_roundtrip (h c (List.mem_cons_self c l)),
      ih (fun x hx => h x (List.mem_cons_of_mem c hx))]

theorem joinSep_cons_ne_nil {sep : Char} {x : Chars} {xs : List Chars} (h : x ≠ []) :
    joinSep sep (x :: xs) ≠ [] := by
  cases xs with
  | nil => simpa [joinSep] using h
  | cons y ys =>
    simp only [joinSep]
    intro he
    rcases List.append_eq_nil.mp he with ⟨h1, _⟩
    exact h h1

theorem conditions_roundtrip {cs : Conditions} (h : cs.Wf) :
    Conditions.from_str (Conditions.to_string cs) = .ok cs := by
  obtain ⟨l⟩ := cs
  cases l with
  | nil => rfl
  | cons c rest =>
    have hempty : Conditions.to_string ⟨c :: rest⟩ ≠ [] := by
      simp only [Conditions.to_string, List.map_cons]
      exact joinSep_cons_ne_nil (to_string_ne_nil c)
    have hsplit : splitOnC '&' (Conditions.to_string ⟨c :: rest⟩) =
        (c :: rest).map Condition.to_string := by
      simp only [Conditions.to_string]
      exact splitOnC_joinSep (by simp) (by
        intro p hp
        rcases List.mem_map.mp hp with ⟨x, _, hx⟩
        exact hx ▸ amp_not_mem_to_string x)
    rw [Conditions.from_str, if_neg hempty, hsplit, parseConds_map h]

theorem condition_from_str_wf {s : Chars} {c : Condition}
    (h : Condition.from_str s = .ok c) : c.Wf := by
  unfold Condition.from_str at h
  repeat' split at h
  all_goals try (cases h)
  all_goals exact u64_from_str_ok (by assumption)

theorem parseConds_wf {parts : List Chars} {l : List Condition}
    (h : parseConds parts = .ok l) : ∀ c ∈ l, c.Wf := by
  induction parts generalizing l with
  | nil =>
    injection h with h
    subst h
    intro c hc
    cases hc
  | cons p parts ih =>
    unfold parseConds at h
    cases h1 : Condition.from_str p with
    | error e => rw [h1] at h; cases h
    | ok c0 =>
      rw [h1] at h
      cases h2 : parseConds parts with
      | error e => rw [h2] at h; cases h
      | ok cs0 =>
        rw [h2] at h
        injection h with h
        subst h
        intro c hc
        rcases List.mem_cons.mp hc with hc | hc
        · exact hc ▸ condition_from_str_wf h1
        · exact ih h2 c hc

theorem conditions_from_str_wf {s : Chars} {cs : Conditions}
    (h : Conditions.from_str s = .ok cs) : cs.Wf := by
  unfold Conditions.from_str at h
  by_cases he : s = []
  · rw [if_pos he] at h
    injection h with h
    subst h
    intro c hc
    cases hc
  · rw [if_neg he] at h
    cases h1 : parseConds (splitOnC '&' s) with
    | error e => rw [h1] at h; cases h
    | ok l =>
      rw [h1] at h
      injection h with h
      subst h
      exact parseConds_wf h1

theorem create_eq (priv : PrivateKey) (B : PublicKey) (s : Chars) :
    DelegationTag.create priv B s =
      match Conditions.from_str s with
      | .error e => .error (.Delegation e)
      | .ok conditions_struct =>
        .ok ⟨priv.pubkey, conditions_struct.to_string,
          ⟨priv.pubkey, hash_256 (delegation_token B s)⟩⟩ := rfl

theorem create_ok {priv : PrivateKey} {B : PublicKey} {s : Chars} {t : DelegationTag}
    (h : DelegationTag.create priv B s = .ok t) :
    ∃ c, Conditions.from_str s = .ok c ∧
      t = ⟨priv.pubkey, c.to_string, ⟨priv.pubkey, hash_256 (delegation_token B s)⟩⟩ := by
  rw [create_eq] at h
  cases h1 : Conditions.from_str s with
  | error e => rw [h1] at h; cases h
  | ok cst =>
    rw [h1] at h
    exact ⟨cst, rfl, (Except.ok.inj h).symm⟩

theorem delegation_token_inj_cond {B : PublicKey} {c c' : Chars}
    (h : delegation_token B c = delegation_token B c') : c = c' := by
  unfold delegation_token at h
  exact List.append_cancel_left h

theorem delegation_token_inj_key {B B' : PublicKey} {c c' : Chars}
    (hB : B.Wf) (hB' : B'.Wf)
    (h : delegation_token B c = delegation_token B' c') : B = B' ∧ c = c' := by
  unfold delegation_token at h
  simp only [List.append_assoc] at h
  have h2 := List.append_cancel_left (List.append_cancel_left (List.append_cancel_left h))
  have hlen : (B.as_hex_string).length = (B'.as_hex_string).length := by
    simp only [PublicKey.as_hex_string, hexEncode_length, hB.1, hB'.1]
  have h3 := List.append_inj h2 hlen
  refine ⟨?_, ?_⟩
  · obtain ⟨b1⟩ := B
    obtain ⟨b2⟩ := B'
    have hbytes : b1 = b2 :=
      hexEncode_inj hB.2 hB'.2 h3.1
    rw [hbytes]
  · exact List.append_cancel_left h3.2

theorem validate_of_verify_fail {t : DelegationTag} {B : PublicKey}
    {props : EventProperties}
    (h : ¬(t.signature.signer = t.delegator_pubkey ∧
        t.signature.id = hash_256 (delegation_token B t.conditions))) :
    t.validate B props = .error (.Delegation (.ConditionsValidation .InvalidSignature)) := by
  unfold DelegationTag.validate verify_delegation_signature
  rw [if_neg h]

theorem from_json_value_arr4 (k p cnd g : Chars) :
    DelegationTag.from_json_value (.arr [.str k, .str p, .str cnd, .str g]) =
      (if k = delegationKeyword then
        match PublicKey.try_from_hex_string p with
        | .error e => .error e
        | .ok pk =>
          match Conditions.from_str cnd with
          | .error e => .error (.Delegation e)
          | .ok conds =>
            match Signature.try_from_hex_string g with
            | .error e => .error e
            | .ok sg => .ok ⟨pk, conds.to_string, sg⟩
       else .error (.Delegation .DelegationTagParse)) := rfl

theorem specUint_digits {u : Chars} (h : specUint u = true) :
    u ≠ [] ∧ ∀ c ∈ u, c.isDigit = true := by
  unfold specUint at h
  rw [Bool.and_eq_true] at h
  constructor
  · intro he
    subst he
    simp at h
  · intro c hc
    exact List.all_eq_true.mp h.2 c hc

theorem canonUint_spec {u : Chars} (h : canonUint u = true) :
    specUint u = true ∧ u = natToChars (valDigits u 0) := by
  unfold canonUint at h
  rw [Bool.and_eq_true] at h
  exact ⟨h.1, of_decide_eq_true h.2⟩

theorem canon_condition_roundtrip {seg : Chars} {c : Condition}
    (hcanon : canonCondition seg = true) (h : Condition.from_str seg = .ok c) :
    Condition.to_string c = seg := by
  unfold canonCondition at hcanon
  unfold Condition.from_str at h
  cases h1 : stripPfx kindPfx seg with
  | some u =>
    simp only [h1] at hcanon h
    obtain ⟨hspec, hueq⟩ := canonUint_spec hcanon
    obtain ⟨hne, hdig⟩ := specUint_digits hspec
    cases h2 : u64_from_str u with
    | error e => simp only [h2] at h; cases h
    | ok n =>
      simp only [h2] at h
      injection h with h
      subst h
      have hn : n = valDigits u 0 := u64_from_str_val hdig h2
      have hseg : seg = kindPfx ++ u := stripPfx_eq_some.mp h1
      simp only [Condition.to_string]
      rw [hn, ← hueq, hseg]
  | none =>
    simp only [h1] at h
    cases h3 : stripPfx beforePfx seg with
    | some u =>
      simp only [h1, h3] at hcanon
      simp only [h3] at h
      obtain ⟨hspec, hueq⟩ := canonUint_spec hcanon
      obtain ⟨hne, hdig⟩ := specUint_digits hspec
      cases h2 : u64_from_str u with
      | error e => simp only [h2] at h; cases h
      | ok n =>
        simp only [h2] at h
        injection h with h
        subst h
        have hn : n = valDigits u 0 := u64_from_str_val hdig h2
        have hseg : seg = beforePfx ++ u := stripPfx_eq_some.mp h3
        simp only [Condition.to_string]
        rw [hn, ← hueq, hseg]
    | none =>
      simp only [h3] at h
      cases h4 : stripPfx afterPfx seg with
      | some u =>
        simp only [h1, h3, h4] at hcanon
        simp only [h4] at h
        obtain ⟨hspec, hueq⟩ := canonUint_spec hcanon
        obtain ⟨hne, hdig⟩ := specUint_digits hspec
        cases h2 : u64_from_str u with
        | error e => simp only [h2] at h; cases h
        | ok n =>
          simp only [h2] at h
          injection h with h
          subst h
          have hn : n = valDigits u 0 := u64_from_str_val hdig h2
          have hseg : seg = afterPfx ++ u := stripPfx_eq_some.mp h4
          simp only [Condition.to_string]
          rw [hn, ← hueq, hseg]
      | none =>
        simp only [h1, h3, h4] at hcanon
        cases hcanon

theorem parseConds_canon {parts : List Chars} {l : List Condition}
    (hc : ∀ p ∈ parts, canonCondition p = true) (h : parseConds parts = .ok l) :
    l.map Condition.to_string = parts := by
  induction parts generalizing l with
  | nil =>
    injection h with h
    subst h
    rfl
  | cons p parts ih =>
    unfold parseConds at h
    cases h1 : Condition.from_str p with
    | error e => rw [h1] at h; cases h
    | ok c0 =>
      rw [h1] at h
      cases h2 : parseConds parts with
      | error e => rw [h2] at h; cases h
      | ok l0 =>
        rw [h2] at h
        have hl : l = c0 :: l0 := (Except.ok.inj h).symm
        subst hl
        simp only [List.map_cons]
        rw [canon_condition_roundtrip (hc p (List.mem_cons_self p parts)) h1,
          ih (fun x hx => hc x (List.mem_cons_of_mem p hx)) h2]

theorem parseConds_append_error {pre : List Chars} {seg : Chars} {post : List Chars}
    {e : DelegationError}
    (hok : ∀ p ∈ pre, isOkB (Condition.from_str p) = true)
    (hseg : Condition.from_str seg = .error e) :
    parseConds (pre ++ seg :: post) = .error e := by
  induction pre with
  | nil => simp only [List.nil_append, parseConds, hseg]
  | cons p pre ih =>
    have hp := hok p (List.mem_cons_self p pre)
    cases h1 : Condition.from_str p with
    | error e2 => rw [h1] at hp; simp [isOkB] at hp
    | ok c =>
      simp only [List.cons_append, parseConds, h1, List.append_eq,
        ih (fun x hx => hok x (List.mem_cons_of_mem p hx))]

theorem parseConds_all_ok {parts : List Chars}
    (h : ∀ p ∈ parts, isOkB (Condition.from_str p) = true) :
    isOkB (parseConds parts) = true := by
  induction parts with
  | nil => rfl
  | cons p parts ih =>
    have hp := h p (List.mem_cons_self p parts)
    cases h1 : Condition.from_str p with
    | error e => rw [h1] at hp; simp [isOkB] at hp
    | ok c =>
      have hrest := ih (fun x hx => h x (List.mem_cons_of_mem p hx))
      cases h2 : parseConds parts with
      | error e => rw [h2] at hrest; simp [isOkB] at hrest
      | ok l => simp only [parseConds, h1, h2, isOkB]

/-- Claim C1: the claim states that for every accepted conditions string,
`DelegationTag::create` signs the SHA-256 digest of the message
"nostr:delegation:(delegatee hex):(conditions)" built from the canonical
(parse-then-reserialize) conditions text, not the raw input. The code signs
the message built from the raw input and stores the canonical text: at the
accepted input "kind=01" the created tag's signature is over the token of
the raw text "kind=01", while the stored conditions are the canonical
"kind=1", whose token differs. -/
theorem claim1_create_signs_raw_input :
    DelegationTag.create privW pubB kind01 =
      .ok ⟨privW.pubkey, kind1, ⟨privW.pubkey, hash_256 (delegation_token pubB kind01)⟩⟩
    ∧ delegation_token pubB kind01 ≠ delegation_token pubB kind1 := by decide

/-- Claim C2, counterexample: the conditions text
"kind=1&created_at>100&created_at<50" evaluated at kind 1 and time 75 fails
with `CreatedTooEarly` (the second condition, created_at>100, is the first
failing one in stored order), not with `CreatedTooLate` as the claim
states. -/
theorem claim2_counterexample :
    Conditions.from_str c2text = .ok ⟨[.Kind 1, .CreatedAfter 100, .CreatedBefore 50]⟩
    ∧ Conditions.evaluate ⟨[.Kind 1, .CreatedAfter 100, .CreatedBefore 50]⟩ ⟨1, 75⟩ =
        .error .CreatedTooEarly
    ∧ (Except.error ValidationError.CreatedTooEarly : Except ValidationError Unit) ≠
        .error .CreatedTooLate := by decide

/-- Claim C2, amended: evaluating the set parsed from
"kind=1&created_at>100&created_at<50" against kind 1, time 75 fails with
exactly one violation, `CreatedTooEarly`: the first condition passes and
the second, created_at>100, is the first failing condition in stored
order. -/
theorem claim2_first_violation :
    Conditions.from_str c2text = .ok ⟨[.Kind 1, .CreatedAfter 100, .CreatedBefore 50]⟩
    ∧ Conditions.evaluate ⟨[.Kind 1, .CreatedAfter 100, .CreatedBefore 50]⟩ ⟨1, 75⟩ =
        .error .CreatedTooEarly
    ∧ Condition.evaluate (.Kind 1) ⟨1, 75⟩ = .ok ()
    ∧ Condition.evaluate (.CreatedAfter 100) ⟨1, 75⟩ = .error .CreatedTooEarly := by
  decide

/-- Claim C3, counterexample: a decodable delegation tag JSON value whose
third element is the non-canonical conditions text "kind=01" decodes to a
tag whose stored conditions string is the re-serialized canonical "kind=1",
not the original string in the JSON. -/
theorem claim3_counterexample :
    DelegationTag.from_json_value
        (.arr [.str delegationKeyword, .str (hexEncode pubBytesA), .str kind01,
          .str ['|']]) =
      .ok ⟨⟨pubBytesA⟩, kind1, ⟨⟨[]⟩, ⟨[]⟩⟩⟩
    ∧ kind1 ≠ kind01 := by decide

/-- Claim C3, amended: `DelegationTag::from_json` validates that the third
array element parses as a condition set and stores its re-serialized
canonical text (so the stored string is byte-identical to the original
exactly when the original is already canonical). -/
theorem claim3_decode_stores_canonical :
    ∀ (p cnd g : Chars) (tag : DelegationTag) (cs : Conditions),
    DelegationTag.from_json_value
        (.arr [.str delegationKeyword, .str p, .str cnd, .str g]) = .ok tag →
    Conditions.from_str cnd = .ok cs →
    tag.conditions = cs.to_string := by
  intro p cnd g tag cs h hp
  rw [from_json_value_arr4, if_pos rfl] at h
  cases h1 : PublicKey.try_from_hex_string p with
  | error e => rw [h1] at h; cases h
  | ok pk =>
    rw [h1, hp] at h
    cases h2 : Signature.try_from_hex_string g with
    | error e => rw [h2] at h; cases h
    | ok sg =>
      rw [h2] at h
      rw [← Except.ok.inj h]

/-- Witness for claim C3's amended theorem at a concrete decodable value. -/
theorem claim3_witness :
    (DelegationTag.mk ⟨pubBytesA⟩ kind1 ⟨⟨[]⟩, ⟨[]⟩⟩).conditions =
      Conditions.to_string ⟨[.Kind 1]⟩ :=
  claim3_decode_stores_canonical (hexEncode pubBytesA) kind01 ['|']
    ⟨⟨pubBytesA⟩, kind1, ⟨⟨[]⟩, ⟨[]⟩⟩⟩ ⟨[.Kind 1]⟩ (by decide) (by decide)

/-- Claim C4: for any conditions string the grammar accepts but whose
re-serialization differs from it, `create` succeeds yet the resulting tag
fails its own `validate` with `ConditionsValidation(InvalidSignature)`,
even when the event properties satisfy every condition: `create` signs the
message built from the original string but stores the canonical form, and
`validate` rebuilds the message from the stored canonical string. -/
theorem claim4_create_validate_mismatch :
    ∀ (priv : PrivateKey) (B : PublicKey) (s : Chars) (c : Conditions)
      (props : EventProperties) (tag : DelegationTag),
    Conditions.from_str s = .ok c →
    Conditions.to_string c ≠ s →
    DelegationTag.create priv B s = .ok tag →
    Conditions.evaluate c props = .ok () →
    DelegationTag.validate tag B props =
      .error (.Delegation (.ConditionsValidation .InvalidSignature)) := by
  intro priv B s c props tag hparse hneq hcreate heval
  obtain ⟨c0, hc0, ht⟩ := create_ok hcreate
  rw [hparse] at hc0
  have hcc : c = c0 := Except.ok.inj hc0
  subst hcc
  subst ht
  apply validate_of_verify_fail
  intro hand
  have h2 : hash_256 (delegation_token B s) =
      hash_256 (delegation_token B (Conditions.to_string c)) := hand.2
  injection h2 with h2
  exact hneq (delegation_token_inj_cond h2).symm

/-- Witness for claim C4 at the concrete non-canonical input "kind=01". -/
theorem claim4_witness :
    DelegationTag.validate
        ⟨⟨List.replicate 32 7⟩, kind1,
          ⟨⟨List.replicate 32 7⟩, hash_256 (delegation_token pubB kind01)⟩⟩
        pubB ⟨1, 0⟩ =
      .error (.Delegation (.ConditionsValidation .InvalidSignature)) :=
  claim4_create_validate_mismatch privW pubB kind01 ⟨[.Kind 1]⟩ ⟨1, 0⟩
    ⟨⟨List.replicate 32 7⟩, kind1,
      ⟨⟨List.replicate 32 7⟩, hash_256 (delegation_token pubB kind01)⟩⟩
    (by decide) (by decide) (by decide) (by decide)

/-- Claim C5: validating a tag produced by `create` for delegatee key B
against a different delegatee key fails with
`ConditionsValidation(InvalidSignature)` and never with a conditions
violation, because signature verification precedes condition evaluation in
`validate`. -/
theorem claim5_wrong_delegatee_invalid_signature :
    ∀ (priv : PrivateKey) (B B2 : PublicKey) (s : Chars) (tag : DelegationTag)
      (props : EventProperties),
    DelegationTag.create priv B s = .ok tag →
    B.Wf → B2.Wf → B ≠ B2 →
    DelegationTag.validate tag B2 props =
      .error (.Delegation (.ConditionsValidation .InvalidSignature)) := by
  intro priv B B2 s tag props hcreate hB hB2 hne
  obtain ⟨c0, hc0, ht⟩ := create_ok hcreate
  subst ht
  apply validate_of_verify_fail
  intro hand
  have h2 : hash_256 (delegation_token B s) =
      hash_256 (delegation_token B2 (Conditions.to_string c0)) := hand.2
  injection h2 with h2
  exact hne (delegation_token_inj_key hB hB2 h2).1

/-- Witness for claim C5 at two distinct concrete delegatee keys. -/
theorem claim5_witness :
    DelegationTag.validate
        ⟨⟨List.replicate 32 7⟩, kind1,
          ⟨⟨List.replicate 32 7⟩, hash_256 (delegation_token pubB kind1)⟩⟩
        pubB2 ⟨1, 0⟩ =
      .error (.Delegation (.ConditionsValidation .InvalidSignature)) :=
  claim5_wrong_delegatee_invalid_signature privW pubB pubB2 kind1
    ⟨⟨List.replicate 32 7⟩, kind1,
      ⟨⟨List.replicate 32 7⟩, hash_256 (delegation_token pubB kind1)⟩⟩
    ⟨1, 0⟩ (by decide) (by decide) (by decide) (by decide)

/-- Claim C6, counterexample: "kind=01" is valid under the spec's grammar
(digit+ accepts a redundant leading zero) and has no leading or trailing
separator, yet serialize(parse("kind=01")) is "kind=1", so the claimed
round-trip for every grammar-valid text without leading or trailing '&'
fails. -/
theorem claim6_counterexample :
    specConditionsGrammar kind01 = true
    ∧ kind01 ≠ []
    ∧ kind01.headD 'x' ≠ '&'
    ∧ kind01.getLastD 'x' ≠ '&'
    ∧ Conditions.from_str kind01 = .ok ⟨[.Kind 1]⟩
    ∧ Conditions.to_string ⟨[.Kind 1]⟩ ≠ kind01 := by decide

/-- Claim C6, amended: parse(serialize(x)) = x for every condition set
whose bounds fit u64 (serialize never reorders, deduplicates, or drops
conditions, as the exact round-trip shows), and serialize(parse(s)) = s for
every canonical conditions text s, where canonical additionally requires
every numeral to be the exact decimal rendering of its value (no redundant
leading zeros, no sign). -/
theorem claim6_roundtrip :
    (∀ cs : Conditions, cs.Wf →
      Conditions.from_str (Conditions.to_string cs) = .ok cs)
    ∧ (∀ (s : Chars) (c : Conditions), canonConditionsText s = true →
        Conditions.from_str s = .ok c → Conditions.to_string c = s) := by
  constructor
  · exact fun cs h => conditions_roundtrip h
  · intro s c hcanon hparse
    by_cases he : s = []
    · subst he
      rw [Conditions.from_str, if_pos rfl] at hparse
      rw [← Except.ok.inj hparse]
      rfl
    · rw [Conditions.from_str, if_neg he] at hparse
      unfold canonConditionsText at hcanon
      rw [Bool.or_eq_true] at hcanon
      have hall : ∀ p ∈ splitOnC '&' s, canonCondition p = true := by
        rcases hcanon with h1 | h2
        · exact absurd (by simpa using h1) he
        · exact List.all_eq_true.mp h2
      cases h1 : parseConds (splitOnC '&' s) with
      | error e => rw [h1] at hparse; cases hparse
      | ok l =>
        rw [h1] at hparse
        have hc : c = ⟨l⟩ := (Except.ok.inj hparse).symm
        subst hc
        show joinSep '&' (l.map Condition.to_string) = s
        rw [parseConds_canon hall h1, joinSep_splitOnC]

/-- Witness for claim C6's amended round-trip at concrete inputs. -/
theorem claim6_witness :
    Conditions.from_str (Conditions.to_string ⟨[.Kind 5, .CreatedAfter 3]⟩) =
      .ok ⟨[.Kind 5, .CreatedAfter 3]⟩
    ∧ Conditions.to_string ⟨[.Kind 1]⟩ = kind1 :=
  ⟨claim6_roundtrip.1 ⟨[.Kind 5, .CreatedAfter 3]⟩ (by decide),
   claim6_roundtrip.2 kind1 ⟨[.Kind 1]⟩ (by decide) (by decide)⟩

/-- Claim C7: the tag codec round-trips: for every tag produced by
`create` (for a well-formed delegator key), decoding the encoded JSON value
succeeds and yields a tag with identical delegator public key, conditions
string, and signature. -/
theorem claim7_codec_roundtrip :
    ∀ (priv : PrivateKey) (B : PublicKey) (s : Chars) (tag : DelegationTag),
    DelegationTag.create priv B s = .ok tag →
    priv.pubkey.Wf →
    DelegationTag.from_json (some tag.as_json_value) = .ok tag := by
  intro priv B s tag hcreate hwf
  obtain ⟨c, hc, ht⟩ := create_ok hcreate
  subst ht
  have hpk : PublicKey.try_from_hex_string (PublicKey.as_hex_string priv.pubkey) =
      .ok priv.pubkey := pubkey_hex_roundtrip hwf
  have hcond : Conditions.from_str (Conditions.to_string c) = .ok c :=
    conditions_roundtrip (conditions_from_str_wf hc)
  have hsig : Signature.try_from_hex_string
      (Signature.as_hex_string ⟨priv.pubkey, hash_256 (delegation_token B s)⟩) =
      .ok ⟨priv.pubkey, hash_256 (delegation_token B s)⟩ :=
    sig_hex_roundtrip hwf.2
  simp only [DelegationTag.from_json, DelegationTag.as_json_value]
  rw [from_json_value_arr4, if_pos rfl]
  rw [hpk, hcond, hsig]

/-- Witness for claim C7 at a concrete created tag. -/
theorem claim7_witness :
    DelegationTag.from_json
        (some (DelegationTag.as_json_value
          ⟨⟨List.replicate 32 7⟩, kind1,
            ⟨⟨List.replicate 32 7⟩, hash_256 (delegation_token pubB kind1)⟩⟩)) =
      .ok ⟨⟨List.replicate 32 7⟩, kind1,
        ⟨⟨List.replicate 32 7⟩, hash_256 (delegation_token pubB kind1)⟩⟩ :=
  claim7_codec_roundtrip privW pubB kind1
    ⟨⟨List.replicate 32 7⟩, kind1,
      ⟨⟨List.replicate 32 7⟩, hash_256 (delegation_token pubB kind1)⟩⟩
    (by decide) (by decide)

/-- Claim C8: condition evaluation semantics: KindEquals fails with
`InvalidKind` unless the kinds are exactly equal; CreatedBefore fails with
`CreatedTooLate` unless the creation time is strictly below the bound;
CreatedAfter fails with `CreatedTooEarly` unless the creation time is
strictly above the bound (equality fails in both time cases); and the
empty condition set evaluates successfully against every event. -/
theorem claim8_evaluation_semantics :
    (∀ (k : Nat) (ep : EventProperties), Condition.evaluate (.Kind k) ep =
      if ep.kind = k then .ok () else .error .InvalidKind)
    ∧ (∀ (t : Nat) (ep : EventProperties), Condition.evaluate (.CreatedBefore t) ep =
      if ep.created_time < t then .ok () else .error .CreatedTooLate)
    ∧ (∀ (t : Nat) (ep : EventProperties), Condition.evaluate (.CreatedAfter t) ep =
      if t < ep.created_time then .ok () else .error .CreatedTooEarly)
    ∧ (∀ ep : EventProperties, Conditions.evaluate ⟨[]⟩ ep = .ok ()) := by
  refine ⟨fun k ep => ?_, fun t ep => ?_, fun t ep => ?_, fun ep => rfl⟩
  · by_cases h : ep.kind = k <;> simp [Condition.evaluate, h]
  · by_cases h : ep.created_time < t
    · have h2 : ¬(ep.created_time ≥ t) := by omega
      simp [Condition.evaluate, h, h2]
    · have h2 : ep.created_time ≥ t := by omega
      simp [Condition.evaluate, h, h2]
  · by_cases h : t < ep.created_time
    · have h2 : ¬(ep.created_time ≤ t) := by omega
      simp [Condition.evaluate, h, h2]
    · have h2 : ep.created_time ≤ t := by omega
      simp [Condition.evaluate, h, h2]

/-- Claim C9: the condition-set parse contract: the empty string yields the
empty set; a segment matching no recognized production fails with
`ConditionsParseInvalidCondition`; a segment with a recognized production
but a failing numeral (non-numeric or overflowing) fails with
`ConditionsParseNumeric` carrying that numeric error; on a non-empty input
split at '&', the first failing segment aborts the whole parse with exactly
its error; and if every segment parses, the whole parse succeeds (no
partial-success state exists). -/
theorem claim9_parse_contract :
    (Conditions.from_str [] = .ok ⟨[]⟩)
    ∧ (∀ seg : Chars, stripPfx kindPfx seg = none → stripPfx beforePfx seg = none →
        stripPfx afterPfx seg = none →
        Condition.from_str seg = .error .ConditionsParseInvalidCondition)
    ∧ (∀ (seg u : Chars) (e : IntErrorKind), stripPfx kindPfx seg = some u →
        u64_from_str u = .error e →
        Condition.from_str seg = .error (.ConditionsParseNumeric e))
    ∧ (∀ (seg u : Chars) (e : IntErrorKind), stripPfx beforePfx seg = some u →
        u64_from_str u = .error e →
        Condition.from_str seg = .error (.ConditionsParseNumeric e))
    ∧ (∀ (seg u : Chars) (e : IntErrorKind), stripPfx afterPfx seg = some u →
        u64_from_str u = .error e →
        Condition.from_str seg = .error (.ConditionsParseNumeric e))
    ∧ (∀ (s : Chars) (pre : List Chars) (seg : Chars) (post : List Chars)
        (e : DelegationError), s ≠ [] →
        splitOnC '&' s = pre ++ seg :: post →
        (∀ p ∈ pre, isOkB (Condition.from_str p) = true) →
        Condition.from_str seg = .error e →
        Conditions.from_str s = .error e)
    ∧ (∀ s : Chars, s ≠ [] →
        (∀ p ∈ splitOnC '&' s, isOkB (Condition.from_str p) = true) →
        isOkB (Conditions.from_str s) = true) := by
  refine ⟨rfl, ?_, ?_, ?_, ?_, ?_, ?_⟩
  · intro seg h1 h2 h3
    simp only [Condition.from_str, h1, h2, h3]
  · intro seg u e h1 h2
    simp only [Condition.from_str, h1, h2]
  · intro seg u e h1 h2
    have hs : seg = beforePfx ++ u := stripPfx_eq_some.mp h1
    subst hs
    simp only [Condition.from_str, stripPfx_kind_before, stripPfx_append, h2]
  · intro seg u e h1 h2
    have hs : seg = afterPfx ++ u := stripPfx_eq_some.mp h1
    subst hs
    simp only [Condition.from_str, stripPfx_kind_after, stripPfx_before_after,
      stripPfx_append, h2]
  · intro s pre seg post e hne hsplit hok hseg
    rw [Conditions.from_str, if_neg hne, hsplit, parseConds_append_error hok hseg]
  · intro s hne hall
    rw [Conditions.from_str, if_neg hne]
    have hok := parseConds_all_ok hall
    cases h2 : parseConds (splitOnC '&' s) with
    | error e => rw [h2] at hok; simp [isOkB] at hok
    | ok l => rfl

/-- Witness for claim C9's hypothesized conjuncts at concrete segments:
an unrecognized segment, a non-numeric numeral, an overflowing numeral,
an aborting first failure, and an all-segments-succeed input. -/
theorem claim9_witness :
    Condition.from_str ['z'] = .error .ConditionsParseInvalidCondition
    ∧ Condition.from_str (kindPfx ++ ['z']) =
        .error (.ConditionsParseNumeric .InvalidDigit)
    ∧ Condition.from_str (kindPfx ++
        ['1','8','4','4','6','7','4','4','0','7','3','7','0','9','5','5','1','6','1','6']) =
        .error (.ConditionsParseNumeric .PosOverflow)
    ∧ Conditions.from_str (['z','&'] ++ kind1) =
        .error .ConditionsParseInvalidCondition
    ∧ isOkB (Conditions.from_str kind1) = true :=
  ⟨claim9_parse_contract.2.1 ['z'] (by decide) (by decide) (by decide),
   claim9_parse_contract.2.2.1 (kindPfx ++ ['z']) ['z'] .InvalidDigit
     (by decide) (by decide),
   claim9_parse_contract.2.2.1 (kindPfx ++
       ['1','8','4','4','6','7','4','4','0','7','3','7','0','9','5','5','1','6','1','6'])
     ['1','8','4','4','6','7','4','4','0','7','3','7','0','9','5','5','1','6','1','6']
     .PosOverflow (by decide) (by decide),
   claim9_parse_contract.2.2.2.2.2.1 (['z','&'] ++ kind1) [] ['z'] [kind1]
     .ConditionsParseInvalidCondition (by decide) (by decide) (by decide) (by decide),
   claim9_parse_contract.2.2.2.2.2.2 kind1 (by decide) (by decide)⟩

/-- Claim C10: `DelegationTag::from_json` rejects, with
`DelegationTagParse`, every parsed JSON value that is not an array of
exactly four elements whose first element is the literal string
"delegation"; and a JSON syntax error (a failed external parse) yields
`DelegationTagParseJson`. -/
theorem claim10_decode_rejects :
    (∀ v : Json,
      (v.as_array.isNone = true ∨ (v.as_array.getD []).length ≠ 4 ∨
        ((v.as_array.getD []).getD 0 .null).as_str.getD [] ≠ delegationKeyword) →
      DelegationTag.from_json_value v = .error (.Delegation .DelegationTagParse))
    ∧ DelegationTag.from_json none = .error (.Delegation .DelegationTagParseJson) := by
  constructor
  · intro v hv
    cases v
    case arr a =>
      simp only [Json.as_array, Option.isNone_some, Option.getD_some] at hv
      unfold DelegationTag.from_json_value
      simp only [Json.as_array]
      rcases hv with h1 | h2 | h3
      · cases h1
      · rw [if_neg h2]
      · by_cases hl : a.length = 4
        · rw [if_pos hl, if_neg h3]
        · rw [if_neg hl]
    all_goals rfl
  · rfl

/-- Witness for claim C10 at a concrete non-array JSON value. -/
theorem claim10_witness :
    DelegationTag.from_json_value (Json.str []) =
      .error (.Delegation .DelegationTagParse) :=
  claim10_decode_rejects.1 (Json.str []) (Or.inl (by decide))

end Nostr
